import Mathlib

/-!
Verification of the rspamd Lua expression binding (src/lua/lua_expression.c)
against its specification.

The repository ships the Lua binding layer; the core expression engine
(rspamd_parse_expression, rspamd_process_expression,
rspamd_process_expression_track, rspamd_expression_tostring,
rspamd_expression_atom_foreach) is declared in expression.h but its body is
not part of the visible sources.  Definitions for those operations are
modelled from the specification and are marked `Modelled from the spec:` in
their doc comments.  Definitions for the binding layer itself are translated
directly from lua_expression.c.
-/

namespace Srpamd

/-- Byte text of an atom token, as handed around by the engine. -/
abbrev Tok := List Char

/-- AST of a rule expression.  Modelled from the spec: tagged variant
`Atom | Not | And | Or | Group`; `Group` is a parenthesized subtree kept
for stringification fidelity. -/
inductive LExpr where
  | atom : Tok → LExpr
  | not : LExpr → LExpr
  | and : LExpr → LExpr → LExpr
  | or : LExpr → LExpr → LExpr
  | group : LExpr → LExpr
deriving DecidableEq, Repr

/-- Flattened list of the atom leaves of a tree, in left-to-right textual
order.  Modelled from the spec: the tree retains the flattened
left-to-right atom list built during parsing. -/
def flattenAtoms : LExpr → List Tok
  | .atom a => [a]
  | .not e => flattenAtoms e
  | .and l r => flattenAtoms l ++ flattenAtoms r
  | .or l r => flattenAtoms l ++ flattenAtoms r
  | .group e => flattenAtoms e

/-- Modelled from the spec: the `NO_SHORTCIRCUIT` bit of the evaluation
flags.  The numeric bit positions are not fixed by the visible source
(the binding passes the Lua number through unchanged), so bit 0 is chosen;
all claims depend only on "flag set" versus "flags = 0". -/
def noSC (fl : Nat) : Bool := fl.testBit 0

/-- Modelled from the spec: the `WEIGHTED` bit of the evaluation flags
(bit 1, position chosen arbitrarily as for `noSC`). -/
def weighted (fl : Nat) : Bool := fl.testBit 1

/-- Modelled from the spec: the minimum-magnitude combine used by `And` in
weighted mode. -/
def minMag (a b : Int) : Int := if b.natAbs < a.natAbs then b else a

/-- Modelled from the spec: `rspamd_process_expression` — recursive
evaluation of a tree.  `f` is the per-atom result of `process_atom`
(context already applied).  `And`/`Or` evaluate the left child first and
skip the right child when the result is already determined, unless the
`NO_SHORTCIRCUIT` flag is set; the `WEIGHTED` flag switches `Not`/`And`/`Or`
to sign/magnitude semantics. -/
def processExpr (f : Tok → Int) (fl : Nat) : LExpr → Int
  | .atom a => f a
  | .not e =>
      let r := processExpr f fl e
      if weighted fl then -r else if r = 0 then 1 else 0
  | .group e => processExpr f fl e
  | .and l r =>
      let lv := processExpr f fl l
      if lv = 0 ∧ noSC fl = false then 0
      else
        let rv := processExpr f fl r
        if weighted fl then minMag lv rv else if lv ≠ 0 ∧ rv ≠ 0 then 1 else 0
  | .or l r =>
      let lv := processExpr f fl l
      if lv ≠ 0 ∧ noSC fl = false then (if weighted fl then lv else 1)
      else
        let rv := processExpr f fl r
        if weighted fl then lv + rv else if lv ≠ 0 ∨ rv ≠ 0 then 1 else 0

/-- The atoms whose `process_atom` callback is invoked by `processExpr`,
in invocation order, one entry per invocation.  Mirrors the short-circuit
decisions of `processExpr` exactly. -/
def invokedAtoms (f : Tok → Int) (fl : Nat) : LExpr → List Tok
  | .atom a => [a]
  | .not e => invokedAtoms f fl e
  | .group e => invokedAtoms f fl e
  | .and l r =>
      invokedAtoms f fl l ++
        (if processExpr f fl l = 0 ∧ noSC fl = false then []
         else invokedAtoms f fl r)
  | .or l r =>
      invokedAtoms f fl l ++
        (if processExpr f fl l ≠ 0 ∧ noSC fl = false then []
         else invokedAtoms f fl r)

/-- Modelled from the spec: `rspamd_process_expression_track` — the traced
variant threads a trace through one evaluation walk, appending every atom
immediately after its `process_atom` call returns. -/
def processTraced (f : Tok → Int) (fl : Nat) : LExpr → Int × List Tok
  | .atom a => (f a, [a])
  | .not e =>
      let p := processTraced f fl e
      ((if weighted fl then -p.1 else if p.1 = 0 then 1 else 0), p.2)
  | .group e => processTraced f fl e
  | .and l r =>
      let p := processTraced f fl l
      if p.1 = 0 ∧ noSC fl = false then (0, p.2)
      else
        let q := processTraced f fl r
        ((if weighted fl then minMag p.1 q.1
          else if p.1 ≠ 0 ∧ q.1 ≠ 0 then 1 else 0), p.2 ++ q.2)
  | .or l r =>
      let p := processTraced f fl l
      if p.1 ≠ 0 ∧ noSC fl = false then ((if weighted fl then p.1 else 1), p.2)
      else
        let q := processTraced f fl r
        ((if weighted fl then p.1 + q.1
          else if p.1 ≠ 0 ∨ q.1 ≠ 0 then 1 else 0), p.2 ++ q.2)

/-- Embeds `lua_atom_process`: run the Lua `process_atom` callback via
`lua_pcall`; when the call fails the result stays `ret = 0`, otherwise the
returned number is used. -/
def luaAtomProcess {γ : Type} (cb : Tok → γ → Except (List Char) Int)
    (input : γ) (a : Tok) : Int :=
  match cb a input with
  | .error _ => 0
  | .ok v => v

/-- A callback patched so that every failure is replaced by a successful
result of 0; used to state the failure-recovery property. -/
def patchOk {γ : Type} (cb : Tok → γ → Except (List Char) Int) :
    Tok → γ → Except (List Char) Int :=
  fun a inp =>
    match cb a inp with
    | .error _ => .ok 0
    | .ok v => .ok v

/-- Embeds `lua_expr_process`: flags default to 0 when the optional third
argument is absent (`lua_gettop (L) >= 3` fails). -/
def luaExprProcess {γ : Type} (e : LExpr) (cb : Tok → γ → Except (List Char) Int)
    (input : γ) (flagsArg : Option Nat) : Int :=
  processExpr (luaAtomProcess cb input)
    (match flagsArg with | some n => n | none => 0) e

/-- Embeds `lua_expr_process_traced`: same defaulting of flags, returns the
numeric result together with the trace. -/
def luaExprProcessTraced {γ : Type} (e : LExpr)
    (cb : Tok → γ → Except (List Char) Int) (input : γ)
    (flagsArg : Option Nat) : Int × List Tok :=
  processTraced (luaAtomProcess cb input)
    (match flagsArg with | some n => n | none => 0) e

/-- Modelled from the spec: the minimum priority among the atoms of a
subtree, used to order commutative operands (lower means cheaper). -/
def leafPrio (p : Tok → Int) (e : LExpr) : Int :=
  match flattenAtoms e with
  | [] => 0
  | a :: as => as.foldl (fun m x => min m (p x)) (p a)

/-- Modelled from the spec: the one-time tree-build reordering pass that
promotes the cheaper operand of a commutative `And`/`Or` to the left; ties
(no strictly smaller priority) keep the original order.  The Lua binding
registers no priority callback (`lua_atom_subr.priority = NULL`), which is
modelled as a constant priority function. -/
def reorderExpr (p : Tok → Int) : LExpr → LExpr
  | .atom a => .atom a
  | .not e => .not (reorderExpr p e)
  | .group e => .group (reorderExpr p e)
  | .and l r =>
      let lt := reorderExpr p l
      let rt := reorderExpr p r
      if leafPrio p rt < leafPrio p lt then .and rt lt else .and lt rt
  | .or l r =>
      let lt := reorderExpr p l
      let rt := reorderExpr p r
      if leafPrio p rt < leafPrio p lt then .or rt lt else .or lt rt

/-- Embeds the storage step of `lua_atom_parse` on byte level:
`atom->str = rspamd_mempool_strdup (e->pool, tok)` copies the token up to
the first NUL byte while `atom->len = rlen` records the full Lua string
length. -/
def strdupModel (s : List Nat) : List Nat := s.takeWhile (· ≠ 0)

/-- The C-side atom produced by `lua_atom_parse`: NUL-truncated text plus
the full recorded length. -/
structure CAtom where
  str : List Nat
  len : Nat
deriving DecidableEq, Repr

/-- Embeds the `atom->str` / `atom->len` assignment of `lua_atom_parse`. -/
def luaAtomParseStore (tok : List Nat) : CAtom :=
  ⟨strdupModel tok, tok.length⟩

/-! ## Parser model -/

/-- Parse error taxonomy.  Modelled from the spec: unmatched grouping,
missing operand / empty expression, trailing input, provider atom-parse
failure; `emptyAtom` is the engine rejecting a zero-length atom claim
(required for parser progress); `fuelExhausted` is an artifact of the
fuel-based embedding and is unreachable for the budget used by
`parseExpression`. -/
inductive PErr where
  | missingOperand
  | unmatchedParen
  | trailingInput
  | emptyAtom
  | fuelExhausted
  | providerFailed
  | providerRejected
deriving DecidableEq, Repr

/-- The human-readable message carried by each parse error.  The provider
rejection message is the one set by `lua_atom_parse` via `g_set_error`
(`"cannot parse lua atom"`); the others are modelled from the spec (all
parse errors carry a descriptive message distinguishing syntax errors from
provider failures). -/
def PErr.message : PErr → List Char
  | .missingOperand => ("syntax error: missing operand").toList
  | .unmatchedParen => ("syntax error: unmatched parenthesis").toList
  | .trailingInput => ("syntax error: trailing input after expression").toList
  | .emptyAtom => ("syntax error: empty atom").toList
  | .fuelExhausted => ("syntax error: expression too deep").toList
  | .providerFailed => ("cannot parse atom: callback failed").toList
  | .providerRejected => ("cannot parse lua atom").toList

/-- Skip insignificant whitespace between tokens. -/
def skipWs (s : Tok) : Tok := s.dropWhile (fun c => c = ' ')

/-- Result of one parser nonterminal: the tree built, the atoms consumed
in consumption (textual) order, and the remaining input. -/
structure POut where
  tree : LExpr
  atoms : List Tok
  rest : Tok
deriving DecidableEq, Repr

/-- The parser's nonterminals: `Or := And (('|') And)*`,
`And := Unary (('&') Unary)*`, `Unary := '!' Unary | Primary`,
`Primary := '(' Or ')' | Atom`.  The `Tail` modes carry the left-associative
accumulator of the iterated binary rules. -/
inductive PMode where
  | por
  | porTail (acc : LExpr) (ats : List Tok)
  | pand
  | pandTail (acc : LExpr) (ats : List Tok)
  | punary
  | pprimary
deriving Repr

/-- Modelled from the spec: the recursive-descent parser of
`rspamd_parse_expression`.  `P` is the provider's `parse_atom` on the
remaining text (it returns the claimed token; the parser advances past its
length).  Reserved operator characters are `! & | ( )`; whitespace between
tokens is skipped; a zero-length atom claim is rejected.  The `fuel`
argument makes the recursion structural and is an embedding artifact. -/
def parseF (P : Tok → Except PErr Tok) : Nat → PMode → Tok → Except PErr POut
  | 0, _, _ => .error .fuelExhausted
  | f+1, .pprimary, s =>
    match skipWs s with
    | [] => .error .missingOperand
    | c :: r =>
      if c = '(' then
        match parseF P f .por r with
        | .error e => .error e
        | .ok o =>
          match skipWs o.rest with
          | [] => .error .unmatchedParen
          | c2 :: r2 =>
            if c2 = ')' then .ok ⟨.group o.tree, o.atoms, r2⟩
            else .error .unmatchedParen
      else if c = ')' ∨ c = '|' ∨ c = '&' ∨ c = '!' then .error .missingOperand
      else
        match P (c :: r) with
        | .error e => .error e
        | .ok tok =>
          if tok = [] then .error .emptyAtom
          else .ok ⟨.atom tok, [tok], (c :: r).drop tok.length⟩
  | f+1, .punary, s =>
    match skipWs s with
    | [] => parseF P f .pprimary s
    | c :: r =>
      if c = '!' then
        match parseF P f .punary r with
        | .error e => .error e
        | .ok o => .ok ⟨.not o.tree, o.atoms, o.rest⟩
      else parseF P f .pprimary s
  | f+1, .pand, s =>
    match parseF P f .punary s with
    | .error e => .error e
    | .ok o => parseF P f (.pandTail o.tree o.atoms) o.rest
  | f+1, .pandTail acc ats, s =>
    match skipWs s with
    | [] => .ok ⟨acc, ats, s⟩
    | c :: r =>
      if c = '&' then
        match parseF P f .punary r with
        | .error e => .error e
        | .ok o => parseF P f (.pandTail (.and acc o.tree) (ats ++ o.atoms)) o.rest
      else .ok ⟨acc, ats, s⟩
  | f+1, .por, s =>
    match parseF P f .pand s with
    | .error e => .error e
    | .ok o => parseF P f (.porTail o.tree o.atoms) o.rest
  | f+1, .porTail acc ats, s =>
    match skipWs s with
    | [] => .ok ⟨acc, ats, s⟩
    | c :: r =>
      if c = '|' then
        match parseF P f .pand r with
        | .error e => .error e
        | .ok o => parseF P f (.porTail (.or acc o.tree) (ats ++ o.atoms)) o.rest
      else .ok ⟨acc, ats, s⟩

/-- Modelled from the spec: `rspamd_parse_expression` — parse the whole
input; trailing unconsumed input after a complete parse is an error, and no
partial tree is ever returned.  The fuel budget is sufficient for every
input (see the completeness lemmas). -/
def parseExpression (P : Tok → Except PErr Tok) (s : Tok) :
    Except PErr (LExpr × List Tok) :=
  match parseF P (8 * s.length + 8) .por s with
  | .error e => .error e
  | .ok o => if skipWs o.rest = [] then .ok (o.tree, o.atoms) else .error .trailingInput

/-- Modelled from the spec: `rspamd_expression_tostring` — canonical
rendering with explicit parenthesization reflecting the original grouping
(`Group` nodes). -/
def render : LExpr → Tok
  | .atom a => a
  | .not e => '!' :: render e
  | .and l r => render l ++ ' ' :: '&' :: ' ' :: render r
  | .or l r => render l ++ ' ' :: '|' :: ' ' :: render r
  | .group e => '(' :: (render e ++ [')'])

/-- Embeds `lua_expr_to_string` on the stored tree. -/
def luaExprToString (obj : LExpr × List Tok) : Tok := render obj.1

/-- Modelled from the spec: `rspamd_expression_atom_foreach` iterates the
flattened atom list stored in the expression at parse time (the binding's
`atoms()` method); it takes no `process_atom` callback at all. -/
def atomForeach (obj : LExpr × List Tok) : List Tok := obj.2

/-- Grammar level of a node: 0 = Or, 1 = And, 2 = Unary, 3 = Primary. -/
def lvl : LExpr → Nat
  | .or _ _ => 0
  | .and _ _ => 1
  | .not _ => 2
  | .atom _ => 3
  | .group _ => 3

/-- The structural invariant of parser-produced trees: operand levels
respect the grammar (the right operand of a binary node sits one level
higher, un-grouped `Or` never sits under `And`, …) and atom texts are
nonempty. -/
def canonical : LExpr → Bool
  | .atom a => !a.isEmpty
  | .not e => canonical e && decide (2 ≤ lvl e)
  | .and l r => canonical l && canonical r && decide (1 ≤ lvl l) && decide (2 ≤ lvl r)
  | .or l r => canonical l && canonical r && decide (1 ≤ lvl r)
  | .group e => canonical e

/-- Fuel bookkeeping measure for the completeness lemmas. -/
def psize : LExpr → Nat
  | .atom _ => 8
  | .not e => psize e + 8
  | .and l r => psize l + psize r + 8
  | .or l r => psize l + psize r + 8
  | .group e => psize e + 8

/-- An atom text whose first byte is not an operator character, not a
space and present at all — exactly the texts at which the parser delegates
to the provider. -/
def GoodAtom (a : Tok) : Prop :=
  ∃ c cs, a = c :: cs ∧ c ≠ ' ' ∧ c ≠ '(' ∧ c ≠ ')' ∧ c ≠ '|' ∧ c ≠ '&' ∧ c ≠ '!'

/-- The texts that can follow an atom in a canonical rendering: nothing, a
space, or a closing parenthesis. -/
def RawFollows (r : Tok) : Prop :=
  r = [] ∨ (∃ x, r = ' ' :: x) ∨ (∃ x, r = ')' :: x)

/-- Valid continuation after a complete `Or`-level rendering. -/
def AfterOr (r : Tok) : Prop :=
  RawFollows r ∧ (skipWs r = [] ∨ ∃ x, skipWs r = ')' :: x)

/-- Valid continuation after a complete `And`-level rendering. -/
def AfterAnd (r : Tok) : Prop :=
  RawFollows r ∧
    (skipWs r = [] ∨ (∃ x, skipWs r = ')' :: x) ∨ (∃ x, skipWs r = '|' :: x))

/-- Completeness of `parseF` at the `Primary` nonterminal for a tree `t`:
parsing its rendering (with any leading spaces and any valid continuation)
succeeds, returns exactly `t` and its atoms, and stops at the
continuation. -/
def CPrimP (P : Tok → Except PErr Tok) (t : LExpr) : Prop :=
  ∀ f pre r, psize t ≤ f → (∀ c ∈ pre, c = ' ') → RawFollows r →
    parseF P f .pprimary (pre ++ render t ++ r) = .ok ⟨t, flattenAtoms t, r⟩

/-- Completeness of `parseF` at the `Unary` nonterminal. -/
def CUnaryP (P : Tok → Except PErr Tok) (t : LExpr) : Prop :=
  ∀ f pre r, psize t + 2 ≤ f → (∀ c ∈ pre, c = ' ') → RawFollows r →
    parseF P f .punary (pre ++ render t ++ r) = .ok ⟨t, flattenAtoms t, r⟩

/-- Completeness of `parseF` at the `And` nonterminal. -/
def CAndP (P : Tok → Except PErr Tok) (t : LExpr) : Prop :=
  ∀ f pre r, psize t + 4 ≤ f → (∀ c ∈ pre, c = ' ') → AfterAnd r →
    parseF P f .pand (pre ++ render t ++ r) = .ok ⟨t, flattenAtoms t, r⟩

/-- Completeness of `parseF` at the `Or` nonterminal. -/
def COrP (P : Tok → Except PErr Tok) (t : LExpr) : Prop :=
  ∀ f r, psize t + 6 ≤ f → AfterOr r →
    parseF P f .por (render t ++ r) = .ok ⟨t, flattenAtoms t, r⟩

/-- Head and left-spine items of an iterated `And` chain. -/
def andSpine : LExpr → LExpr × List LExpr
  | .and l r => ((andSpine l).1, (andSpine l).2 ++ [r])
  | t => (t, [])

/-- Head and left-spine items of an iterated `Or` chain. -/
def orSpine : LExpr → LExpr × List LExpr
  | .or l r => ((orSpine l).1, (orSpine l).2 ++ [r])
  | t => (t, [])

/-- Rendering of the tail of an `And` chain. -/
def joinAnd : List LExpr → Tok
  | [] => []
  | i :: is => ' ' :: '&' :: ' ' :: render i ++ joinAnd is

/-- Rendering of the tail of an `Or` chain. -/
def joinOr : List LExpr → Tok
  | [] => []
  | i :: is => ' ' :: '|' :: ' ' :: render i ++ joinOr is

/-- Fuel measure of a chain tail. -/
def psizeL : List LExpr → Nat
  | [] => 0
  | i :: is => psize i + 8 + psizeL is

/-- Concatenated atom lists of a chain tail. -/
def flatsOf : List LExpr → List Tok
  | [] => []
  | i :: is => flattenAtoms i ++ flatsOf is

/-- The spec's provider contract: `parse_atom` returns the exact span it
claims, i.e. the returned token is a prefix of the remaining text. -/
def SpanClaiming (P : Tok → Except PErr Tok) : Prop :=
  ∀ s tok, P s = .ok tok → ∃ r2, s = tok ++ r2

/-- What a successful parse at each nonterminal guarantees about its
output: a canonical tree of at least the nonterminal's level whose
consumed-atoms list is its flattened atom list; for the `Tail` modes the
guarantee is conditional on the accumulator satisfying it. -/
def soundInv : PMode → POut → Prop
  | .pprimary, o => canonical o.tree = true ∧ 3 ≤ lvl o.tree ∧ o.atoms = flattenAtoms o.tree
  | .punary, o => canonical o.tree = true ∧ 2 ≤ lvl o.tree ∧ o.atoms = flattenAtoms o.tree
  | .pand, o => canonical o.tree = true ∧ 1 ≤ lvl o.tree ∧ o.atoms = flattenAtoms o.tree
  | .por, o => canonical o.tree = true ∧ o.atoms = flattenAtoms o.tree
  | .pandTail acc ats, o =>
      (canonical acc = true ∧ 1 ≤ lvl acc ∧ ats = flattenAtoms acc) →
        canonical o.tree = true ∧ 1 ≤ lvl o.tree ∧ o.atoms = flattenAtoms o.tree
  | .porTail acc ats, o =>
      (canonical acc = true ∧ ats = flattenAtoms acc) →
        canonical o.tree = true ∧ o.atoms = flattenAtoms o.tree

/-- What a successful parse guarantees about the operator-freedom of the
atoms it consumed, provided the provider only claims prefixes
(`SpanClaiming`): every consumed atom text starts with a byte that is not
an operator and not a space. -/
def goodInv : PMode → POut → Prop
  | .pandTail _ ats, o => (∀ a ∈ ats, GoodAtom a) → ∀ a ∈ o.atoms, GoodAtom a
  | .porTail _ ats, o => (∀ a ∈ ats, GoodAtom a) → ∀ a ∈ o.atoms, GoodAtom a
  | _, o => ∀ a ∈ o.atoms, GoodAtom a

/-- Atom byte predicate of the simple test provider: stop at whitespace
and at the reserved operator characters. -/
def wsPred : Char → Bool := fun c =>
  !(c = ' ') && !(c = '(') && !(c = ')') && !(c = '|') && !(c = '&') && !(c = '!')

/-- A simple test provider (in the style of the module's doc example,
which tokenizes up to the first space): claim the maximal operator-free,
space-free prefix of the remaining text.  Used by concrete witnesses. -/
def wsProvider : Tok → Except PErr Tok := fun rem =>
  if rem.takeWhile wsPred = [] then .error .providerFailed
  else .ok (rem.takeWhile wsPred)

/-! ## Lua binding model for `create` -/

/-- The Lua value types distinguished by `lua_expr_create`'s checks. -/
inductive LuaType where
  | nil
  | boolean
  | number
  | str
  | table
  | function
  | userdata
deriving DecidableEq, Repr

/-- Embeds `lua_expr_create`: argument sanity checks in source order
(first argument a string, second a table, third a memory pool; then table
elements 1 and 2 must be functions), then the parse; on parse failure the
error's message is returned beside `nil`, otherwise the expression object
(tree plus stored atom list) is returned. -/
def luaExprCreate (a1 a2 : LuaType) (poolOk : Bool) (e1 e2 : LuaType)
    (line : Tok) (P : Tok → Except PErr Tok) :
    Option (LExpr × List Tok) × Option (List Char) :=
  if ¬ (a1 = .str ∧ a2 = .table ∧ poolOk = true) then
    (none, some ("bad arguments").toList)
  else if e1 ≠ .function then (none, some ("bad parse callback").toList)
  else if e2 ≠ .function then (none, some ("bad process callback").toList)
  else
    match parseExpression P line with
    | .error e => (none, some e.message)
    | .ok t => (some t, none)

/-- Outcome of `lua_pcall` on the Lua `parse_atom` function: the call
failed with an error message, or returned one value of some type. -/
inductive LuaPcall where
  | fail (msg : Tok)
  | ret (ty : LuaType) (tok : Tok)
deriving Repr

/-- Embeds `lua_atom_parse`'s control flow as the provider handed to the
engine: a failed `lua_pcall` only logs the Lua message and returns NULL
without setting `err` (the engine's own generic message results — that
part is modelled from the spec, which requires every parse error to carry
a message); a non-string return sets the distinct error
`"cannot parse lua atom"`; a string return is the claimed atom. -/
def luaProvider (fn : Tok → LuaPcall) : Tok → Except PErr Tok :=
  fun rem =>
    match fn rem with
    | .fail _ => .error .providerFailed
    | .ret ty tok => if ty = .str then .ok tok else .error .providerRejected

/-! ## Supporting lemmas about the evaluator -/

/-- With `NO_SHORTCIRCUIT` set, every atom of the tree is invoked, in
textual order. -/
theorem invokedAtoms_of_noSC (f : Tok → Int) (fl : Nat) (h : noSC fl = true) :
    ∀ e : LExpr, invokedAtoms f fl e = flattenAtoms e := by
  intro e
  induction e with
  | atom a => rfl
  | not e ih => simpa [invokedAtoms, flattenAtoms] using ih
  | group e ih => simpa [invokedAtoms, flattenAtoms] using ih
  | and l r ihl ihr => simp [invokedAtoms, flattenAtoms, h, ihl, ihr]
  | or l r ihl ihr => simp [invokedAtoms, flattenAtoms, h, ihl, ihr]

/-- The invoked atoms always form a subsequence of the textual atom list:
evaluation visits atoms in textual left-to-right order, possibly skipping
short-circuited ones. -/
theorem invokedAtoms_sublist (f : Tok → Int) (fl : Nat) :
    ∀ e : LExpr, List.Sublist (invokedAtoms f fl e) (flattenAtoms e) := by
  intro e
  induction e with
  | atom a => simp [invokedAtoms, flattenAtoms]
  | not e ih => simpa [invokedAtoms, flattenAtoms] using ih
  | group e ih => simpa [invokedAtoms, flattenAtoms] using ih
  | and l r ihl ihr =>
      simp only [invokedAtoms, flattenAtoms]
      split
      · simp only [List.append_nil]
        exact ihl.trans (List.sublist_append_left _ _)
      · exact ihl.append ihr
  | or l r ihl ihr =>
      simp only [invokedAtoms, flattenAtoms]
      split
      · simp only [List.append_nil]
        exact ihl.trans (List.sublist_append_left _ _)
      · exact ihl.append ihr

/-- Every tree has at least one atom leaf. -/
theorem flattenAtoms_ne_nil : ∀ e : LExpr, flattenAtoms e ≠ [] := by
  intro e
  induction e with
  | atom a => simp [flattenAtoms]
  | not e ih => simpa [flattenAtoms] using ih
  | group e ih => simpa [flattenAtoms] using ih
  | and l r ihl ihr => simp [flattenAtoms, ihl]
  | or l r ihl ihr => simp [flattenAtoms, ihl]

/-- Folding the minimum of a constant function keeps the start value. -/
theorem foldl_min_const (p : Tok → Int) (c : Int) (hp : ∀ a, p a = c) :
    ∀ as : List Tok, as.foldl (fun m x => min m (p x)) c = c := by
  intro as
  induction as with
  | nil => rfl
  | cons b bs ih => simpa [hp b] using ih

/-- With a constant priority function every subtree has the same leaf
priority. -/
theorem leafPrio_const (p : Tok → Int) (c : Int) (hp : ∀ a, p a = c)
    (e : LExpr) : leafPrio p e = c := by
  unfold leafPrio
  split
  · exact absurd (by assumption) (flattenAtoms_ne_nil e)
  · next a as _ => rw [hp a]; exact foldl_min_const p c hp as

/-- The two callbacks `cb` and `patchOk cb` give the same value through
`lua_atom_process`. -/
theorem luaAtomProcess_patchOk {γ : Type} (cb : Tok → γ → Except (List Char) Int)
    (input : γ) (a : Tok) :
    luaAtomProcess cb input a = luaAtomProcess (patchOk cb) input a := by
  unfold luaAtomProcess patchOk
  cases cb a input <;> rfl

/-! ## Claim theorems on the evaluator -/

/-- C1: for `A & B`, when short-circuiting is enabled and atom `A` returns
0, atom `A` is the only atom invoked (no atom of `B` is); when the
`NO_SHORTCIRCUIT` flag is set, every atom of `B` is invoked after `A`
regardless of `A`'s result. -/
theorem claim_c1 (f : Tok → Int) (fl : Nat) (A : Tok) (B : LExpr) :
    (noSC fl = false → f A = 0 →
      invokedAtoms f fl (.and (.atom A) B) = [A]) ∧
    (noSC fl = true →
      invokedAtoms f fl (.and (.atom A) B) = A :: flattenAtoms B) := by
  constructor
  · intro h1 h2
    simp [invokedAtoms, processExpr, h1, h2]
  · intro h1
    simp [invokedAtoms, processExpr, h1, invokedAtoms_of_noSC f fl h1]

/-- Witness for C1 at concrete inputs. -/
theorem claim_c1_witness :
    invokedAtoms (fun _ => 0) 0 (.and (.atom ['A']) (.atom ['B'])) = [['A']] ∧
    invokedAtoms (fun _ => 0) 1 (.and (.atom ['A']) (.atom ['B']))
      = ['A'] :: flattenAtoms (.atom ['B']) :=
  ⟨(claim_c1 (fun _ => 0) 0 ['A'] (.atom ['B'])).1 (by decide) rfl,
   (claim_c1 (fun _ => 0) 1 ['A'] (.atom ['B'])).2 (by decide)⟩

/-- C2: when the `process_atom` callback fails on an atom, `lua_atom_process`
returns 0 for it, and the whole evaluation (result and set of invoked
atoms) is the same as with a never-failing callback that returns 0 there —
a failing atom callback never aborts the evaluation. -/
theorem claim_c2 {γ : Type} (cb : Tok → γ → Except (List Char) Int)
    (input : γ) (fl : Nat) (t : LExpr) (a : Tok) (m : List Char)
    (hfail : cb a input = .error m) :
    luaAtomProcess cb input a = 0 ∧
    processExpr (luaAtomProcess cb input) fl t
      = processExpr (luaAtomProcess (patchOk cb) input) fl t ∧
    invokedAtoms (luaAtomProcess cb input) fl t
      = invokedAtoms (luaAtomProcess (patchOk cb) input) fl t := by
  have hfun : luaAtomProcess cb input = luaAtomProcess (patchOk cb) input :=
    funext (luaAtomProcess_patchOk cb input)
  refine ⟨?_, by rw [hfun], by rw [hfun]⟩
  simp [luaAtomProcess, hfail]

/-- Witness for C2 at concrete inputs. -/
theorem claim_c2_witness :
    luaAtomProcess (fun _ (_ : Unit) => (Except.error ['b'] : Except (List Char) Int)) () ['A'] = 0 ∧
    processExpr (luaAtomProcess (fun _ (_ : Unit) => (Except.error ['b'] : Except (List Char) Int)) ()) 0 (.atom ['A'])
      = processExpr (luaAtomProcess (patchOk (fun _ (_ : Unit) => (Except.error ['b'] : Except (List Char) Int))) ()) 0 (.atom ['A']) ∧
    invokedAtoms (luaAtomProcess (fun _ (_ : Unit) => (Except.error ['b'] : Except (List Char) Int)) ()) 0 (.atom ['A'])
      = invokedAtoms (luaAtomProcess (patchOk (fun _ (_ : Unit) => (Except.error ['b'] : Except (List Char) Int))) ()) 0 (.atom ['A']) :=
  claim_c2 (fun _ _ => Except.error ['b']) () 0 (.atom ['A']) ['A'] ['b'] rfl

/-- C5: the traced evaluation returns exactly the plain evaluation's
numeric result together with the list of atoms actually invoked, in
invocation order — tracing observes and never changes evaluation. -/
theorem claim_c5 (f : Tok → Int) (fl : Nat) (t : LExpr) :
    processTraced f fl t = (processExpr f fl t, invokedAtoms f fl t) := by
  induction t with
  | atom a => rfl
  | not e ih => simp [processTraced, processExpr, invokedAtoms, ih]
  | group e ih => simp [processTraced, processExpr, invokedAtoms, ih]
  | and l r ihl ihr =>
      simp only [processTraced, processExpr, invokedAtoms, ihl, ihr]
      by_cases hc : processExpr f fl l = 0 ∧ noSC fl = false <;> simp [hc]
  | or l r ihl ihr =>
      simp only [processTraced, processExpr, invokedAtoms, ihl, ihr]
      by_cases hc : processExpr f fl l ≠ 0 ∧ noSC fl = false <;> simp [hc]

/-- C7: with no priority hints (the Lua binding registers none, modelled as
a constant priority), the build-time reordering pass is the identity —
ties keep the original left-to-right order — and evaluation visits atoms
of every conjunction and disjunction in the original textual order. -/
theorem claim_c7 (p : Tok → Int) (c : Int) (hp : ∀ a, p a = c) (e : LExpr)
    (f : Tok → Int) (fl : Nat) :
    reorderExpr p e = e ∧
    List.Sublist (invokedAtoms f fl (reorderExpr p e)) (flattenAtoms e) := by
  have hre : ∀ x : LExpr, reorderExpr p x = x := by
    intro x
    induction x with
    | atom a => rfl
    | not e ih => simp [reorderExpr, ih]
    | group e ih => simp [reorderExpr, ih]
    | and l r ihl ihr => simp [reorderExpr, ihl, ihr, leafPrio_const p c hp]
    | or l r ihl ihr => simp [reorderExpr, ihl, ihr, leafPrio_const p c hp]
  exact ⟨hre e, (hre e).symm ▸ invokedAtoms_sublist f fl e⟩

/-- Witness for C7 at concrete inputs. -/
theorem claim_c7_witness :
    reorderExpr (fun _ => 0) (.or (.atom ['A']) (.atom ['B']))
      = .or (.atom ['A']) (.atom ['B']) ∧
    List.Sublist
      (invokedAtoms (fun _ => 1) 0
        (reorderExpr (fun _ => 0) (.or (.atom ['A']) (.atom ['B']))))
      (flattenAtoms (.or (.atom ['A']) (.atom ['B']))) :=
  claim_c7 (fun _ => 0) 0 (fun _ => rfl) (.or (.atom ['A']) (.atom ['B']))
    (fun _ => 1) 0

/-- C8: calling `process`/`process_traced` without the optional flags
argument evaluates with flags 0, identical to passing 0 explicitly, and
flags 0 means short-circuiting enabled and boolean semantics. -/
theorem claim_c8 {γ : Type} (e : LExpr) (cb : Tok → γ → Except (List Char) Int)
    (input : γ) :
    luaExprProcess e cb input none = luaExprProcess e cb input (some 0) ∧
    luaExprProcessTraced e cb input none = luaExprProcessTraced e cb input (some 0) ∧
    noSC 0 = false ∧ weighted 0 = false :=
  ⟨rfl, rfl, by decide, by decide⟩

/-- C9: `lua_atom_parse` records the full token length but stores the text
with a NUL-terminated copy, so the stored text has the recorded length —
and equals the token — exactly when the token has no embedded NUL byte. -/
theorem claim_c9 (tok : List Nat) :
    (luaAtomParseStore tok).len = tok.length ∧
    ((luaAtomParseStore tok).str.length = (luaAtomParseStore tok).len ↔ ¬ 0 ∈ tok) ∧
    ((luaAtomParseStore tok).str = tok ↔ ¬ 0 ∈ tok) := by
  refine ⟨rfl, ?_⟩
  have hcons : ∀ (h : Nat) (t : List Nat),
      strdupModel (h :: t) = if h = 0 then [] else h :: strdupModel t := by
    intro h t
    by_cases h0 : h = 0 <;> simp [strdupModel, List.takeWhile_cons, h0]
  simp only [luaAtomParseStore]
  induction tok with
  | nil => simp [strdupModel]
  | cons h t ih =>
      by_cases h0 : h = 0
      · subst h0
        constructor
        · rw [hcons 0 t]
          simp
        · rw [hcons 0 t]
          simp
      · constructor
        · rw [hcons h t]
          simp only [h0, if_false, List.length_cons, List.mem_cons]
          rw [Nat.add_right_cancel_iff]
          rw [ih.1]
          simp [Ne.symm h0]
        · rw [hcons h t]
          simp only [h0, if_false, List.mem_cons]
          rw [List.cons_eq_cons]
          simp only [true_and]
          rw [ih.2]
          simp [Ne.symm h0]

/-! ## Parser soundness -/

/-- Successful parses satisfy the structural invariant `soundInv`: the
tree is canonical at the nonterminal's level and the consumed-atoms list
is the tree's flattened atom list. -/
theorem parseF_sound (P : Tok → Except PErr Tok) :
    ∀ f mode s o, parseF P f mode s = .ok o → soundInv mode o := by
  intro f
  induction f with
  | zero => intro mode s o h; exact Except.noConfusion h
  | succ f ih =>
    intro mode s o h
    cases mode with
    | por =>
        simp only [parseF] at h
        split at h
        · exact Except.noConfusion h
        · next o1 heq =>
            have s1 := ih .pand s o1 heq
            have s2 := ih _ _ _ h
            exact s2 ⟨s1.1, s1.2.2⟩
    | porTail acc ats =>
        simp only [parseF] at h
        split at h
        · injection h with h2
          subst h2
          intro hpre
          exact ⟨hpre.1, hpre.2⟩
        · split at h
          · split at h
            · exact Except.noConfusion h
            · next o1 heq =>
                have s1 := ih .pand _ o1 heq
                have s2 := ih _ _ _ h
                intro hpre
                refine s2 ⟨?_, ?_⟩
                · simp [canonical, hpre.1, s1.1, s1.2.1]
                · simp [flattenAtoms, hpre.2, s1.2.2]
          · injection h with h2
            subst h2
            intro hpre
            exact ⟨hpre.1, hpre.2⟩
    | pand =>
        simp only [parseF] at h
        split at h
        · exact Except.noConfusion h
        · next o1 heq =>
            have s1 := ih .punary s o1 heq
            have s2 := ih _ _ _ h
            exact s2 ⟨s1.1, le_trans (by omega) s1.2.1, s1.2.2⟩
    | pandTail acc ats =>
        simp only [parseF] at h
        split at h
        · injection h with h2
          subst h2
          intro hpre
          exact hpre
        · split at h
          · split at h
            · exact Except.noConfusion h
            · next o1 heq =>
                have s1 := ih .punary _ o1 heq
                have s2 := ih _ _ _ h
                intro hpre
                refine s2 ⟨?_, ?_, ?_⟩
                · simp [canonical, hpre.1, s1.1, hpre.2.1, s1.2.1]
                · simp [lvl]
                · simp [flattenAtoms, hpre.2.2, s1.2.2]
          · injection h with h2
            subst h2
            intro hpre
            exact hpre
    | punary =>
        simp only [parseF] at h
        split at h
        · have s1 := ih .pprimary _ _ h
          exact ⟨s1.1, le_trans (by omega) s1.2.1, s1.2.2⟩
        · split at h
          · split at h
            · exact Except.noConfusion h
            · next o1 heq =>
                have s1 := ih .punary _ o1 heq
                injection h with h2
                subst h2
                refine ⟨?_, ?_, ?_⟩
                · simp [canonical, s1.1, s1.2.1]
                · simp [lvl]
                · simpa [flattenAtoms] using s1.2.2
          · have s1 := ih .pprimary _ _ h
            exact ⟨s1.1, le_trans (by omega) s1.2.1, s1.2.2⟩
    | pprimary =>
        simp only [parseF] at h
        split at h
        · exact Except.noConfusion h
        · split at h
          · split at h
            · exact Except.noConfusion h
            · next o1 heq =>
                have s1 := ih .por _ o1 heq
                split at h
                · exact Except.noConfusion h
                · split at h
                  · injection h with h2
                    subst h2
                    refine ⟨?_, ?_, ?_⟩
                    · simpa [canonical] using s1.1
                    · simp [lvl]
                    · simpa [flattenAtoms] using s1.2
                  · exact Except.noConfusion h
          · split at h
            · exact Except.noConfusion h
            · split at h
              · exact Except.noConfusion h
              · split at h
                · exact Except.noConfusion h
                · next tok htok hne =>
                    injection h with h2
                    subst h2
                    refine ⟨?_, ?_, ?_⟩
                    · simpa [canonical, List.isEmpty_iff] using hne
                    · simp [lvl]
                    · simp [flattenAtoms]

/-! ## Helper lemmas for parser completeness -/

theorem skipWs_nil : skipWs [] = [] := rfl

theorem skipWs_cons_of_ne (c : Char) (x : Tok) (h : c ≠ ' ') :
    skipWs (c :: x) = c :: x := by
  simp [skipWs, List.dropWhile_cons, h]

theorem skipWs_cons_sp (x : Tok) : skipWs (' ' :: x) = skipWs x := by
  simp [skipWs, List.dropWhile_cons]

theorem skipWs_append_spaces (pre x : Tok) (h : ∀ c ∈ pre, c = ' ') :
    skipWs (pre ++ x) = skipWs x := by
  induction pre with
  | nil => rfl
  | cons c cs ih =>
      have hc : c = ' ' := h c (by simp)
      subst hc
      rw [List.cons_append, skipWs_cons_sp]
      exact ih (fun d hd => h d (by simp [hd]))

theorem skipWs_head_ne (s : Tok) (c : Char) (r : Tok)
    (h : skipWs s = c :: r) : c ≠ ' ' := by
  induction s with
  | nil => exact absurd h (by simp [skipWs])
  | cons a as ih =>
      by_cases ha : a = ' '
      · subst ha
        rw [skipWs_cons_sp] at h
        exact ih h
      · rw [skipWs_cons_of_ne a as ha] at h
        injection h with h1 _
        subst h1
        exact ha

theorem psize_pos : ∀ t : LExpr, 8 ≤ psize t := by
  intro t
  cases t <;> simp [psize]

theorem psizeL_concat (xs : List LExpr) (i : LExpr) :
    psizeL (xs ++ [i]) = psizeL xs + (psize i + 8) := by
  induction xs with
  | nil => simp [psizeL]
  | cons a as ih => simp [psizeL, ih]; omega

theorem flatsOf_concat (xs : List LExpr) (i : LExpr) :
    flatsOf (xs ++ [i]) = flatsOf xs ++ flattenAtoms i := by
  induction xs with
  | nil => simp [flatsOf]
  | cons a as ih => simp [flatsOf, ih]

theorem joinAnd_concat (xs : List LExpr) (i : LExpr) :
    joinAnd (xs ++ [i]) = joinAnd xs ++ ' ' :: '&' :: ' ' :: render i := by
  induction xs with
  | nil => simp [joinAnd]
  | cons a as ih => simp [joinAnd, ih]

theorem joinOr_concat (xs : List LExpr) (i : LExpr) :
    joinOr (xs ++ [i]) = joinOr xs ++ ' ' :: '|' :: ' ' :: render i := by
  induction xs with
  | nil => simp [joinOr]
  | cons a as ih => simp [joinOr, ih]

theorem mem_psizeL (items : List LExpr) (i : LExpr) (hi : i ∈ items) :
    psize i + 8 ≤ psizeL items := by
  induction items with
  | nil => cases hi
  | cons b bs ih =>
      rcases List.mem_cons.mp hi with h1 | h1
      · subst h1
        simp only [psizeL]
        omega
      · have := ih h1
        simp only [psizeL]
        omega

theorem mem_flatsOf (items : List LExpr) (i : LExpr) (a : Tok)
    (hi : i ∈ items) (ha : a ∈ flattenAtoms i) : a ∈ flatsOf items := by
  induction items with
  | nil => cases hi
  | cons b bs ih =>
      rcases List.mem_cons.mp hi with h1 | h1
      · subst h1
        simp [flatsOf, ha]
      · simp [flatsOf, ih h1]

/-! ## Spine lemmas: an `And`/`Or` chain as head plus items -/

theorem andSpine_fold (t : LExpr) :
    List.foldl LExpr.and (andSpine t).1 (andSpine t).2 = t := by
  induction t with
  | and l r ihl ihr => simp [andSpine, List.foldl_append, ihl]
  | atom a => rfl
  | not e ih => rfl
  | or l r ihl ihr => rfl
  | group e ih => rfl

theorem orSpine_fold (t : LExpr) :
    List.foldl LExpr.or (orSpine t).1 (orSpine t).2 = t := by
  induction t with
  | or l r ihl ihr => simp [orSpine, List.foldl_append, ihl]
  | atom a => rfl
  | not e ih => rfl
  | and l r ihl ihr => rfl
  | group e ih => rfl

theorem andSpine_render (t : LExpr) :
    render t = render (andSpine t).1 ++ joinAnd (andSpine t).2 := by
  induction t with
  | and l r ihl ihr =>
      simp only [andSpine, joinAnd_concat, render]
      rw [← List.append_assoc, ← ihl]
  | atom a => simp [andSpine, joinAnd]
  | not e ih => simp [andSpine, joinAnd]
  | or l r ihl ihr => simp [andSpine, joinAnd]
  | group e ih => simp [andSpine, joinAnd]

theorem orSpine_render (t : LExpr) :
    render t = render (orSpine t).1 ++ joinOr (orSpine t).2 := by
  induction t with
  | or l r ihl ihr =>
      simp only [orSpine, joinOr_concat, render]
      rw [← List.append_assoc, ← ihl]
  | atom a => simp [orSpine, joinOr]
  | not e ih => simp [orSpine, joinOr]
  | and l r ihl ihr => simp [orSpine, joinOr]
  | group e ih => simp [orSpine, joinOr]

theorem andSpine_flatten (t : LExpr) :
    flattenAtoms t = flattenAtoms (andSpine t).1 ++ flatsOf (andSpine t).2 := by
  induction t with
  | and l r ihl ihr =>
      simp only [andSpine, flatsOf_concat, flattenAtoms]
      rw [← List.append_assoc, ← ihl]
  | atom a => simp [andSpine, flatsOf]
  | not e ih => simp [andSpine, flatsOf]
  | or l r ihl ihr => simp [andSpine, flatsOf]
  | group e ih => simp [andSpine, flatsOf]

theorem orSpine_flatten (t : LExpr) :
    flattenAtoms t = flattenAtoms (orSpine t).1 ++ flatsOf (orSpine t).2 := by
  induction t with
  | or l r ihl ihr =>
      simp only [orSpine, flatsOf_concat, flattenAtoms]
      rw [← List.append_assoc, ← ihl]
  | atom a => simp [orSpine, flatsOf]
  | not e ih => simp [orSpine, flatsOf]
  | and l r ihl ihr => simp [orSpine, flatsOf]
  | group e ih => simp [orSpine, flatsOf]

theorem andSpine_psize (t : LExpr) :
    psize t = psize (andSpine t).1 + psizeL (andSpine t).2 := by
  induction t with
  | and l r ihl ihr =>
      simp only [andSpine, psizeL_concat, psize]
      omega
  | atom a => simp [andSpine, psizeL]
  | not e ih => simp [andSpine, psizeL]
  | or l r ihl ihr => simp [andSpine, psizeL]
  | group e ih => simp [andSpine, psizeL]

theorem orSpine_psize (t : LExpr) :
    psize t = psize (orSpine t).1 + psizeL (orSpine t).2 := by
  induction t with
  | or l r ihl ihr =>
      simp only [orSpine, psizeL_concat, psize]
      omega
  | atom a => simp [orSpine, psizeL]
  | not e ih => simp [orSpine, psizeL]
  | and l r ihl ihr => simp [orSpine, psizeL]
  | group e ih => simp [orSpine, psizeL]

theorem andSpine_canonical (t : LExpr) (hc : canonical t = true)
    (hl : 1 ≤ lvl t) :
    canonical (andSpine t).1 = true ∧ 2 ≤ lvl (andSpine t).1 ∧
      ∀ i ∈ (andSpine t).2, canonical i = true ∧ 2 ≤ lvl i := by
  induction t with
  | and l r ihl ihr =>
      simp only [canonical, Bool.and_eq_true, decide_eq_true_eq] at hc
      obtain ⟨⟨⟨hcl, hcr⟩, hll⟩, hlr⟩ := hc
      have hh := ihl hcl hll
      refine ⟨?_, ?_, ?_⟩
      · simpa [andSpine] using hh.1
      · simpa [andSpine] using hh.2.1
      · intro i hi
        simp only [andSpine, List.mem_append, List.mem_singleton] at hi
        rcases hi with h1 | h1
        · exact hh.2.2 i h1
        · subst h1
          exact ⟨hcr, hlr⟩
  | atom a => exact ⟨hc, by simp [andSpine, lvl], by simp [andSpine]⟩
  | not e ih => exact ⟨hc, by simp [andSpine, lvl], by simp [andSpine]⟩
  | or l r ihl ihr => exact absurd hl (by simp [lvl])
  | group e ih => exact ⟨hc, by simp [andSpine, lvl], by simp [andSpine]⟩

theorem orSpine_canonical (t : LExpr) (hc : canonical t = true) :
    canonical (orSpine t).1 = true ∧ 1 ≤ lvl (orSpine t).1 ∧
      ∀ i ∈ (orSpine t).2, canonical i = true ∧ 1 ≤ lvl i := by
  induction t with
  | or l r ihl ihr =>
      simp only [canonical, Bool.and_eq_true, decide_eq_true_eq] at hc
      obtain ⟨⟨hcl, hcr⟩, hlr⟩ := hc
      have hh := ihl hcl
      refine ⟨?_, ?_, ?_⟩
      · simpa [orSpine] using hh.1
      · simpa [orSpine] using hh.2.1
      · intro i hi
        simp only [orSpine, List.mem_append, List.mem_singleton] at hi
        rcases hi with h1 | h1
        · exact hh.2.2 i h1
        · subst h1
          exact ⟨hcr, hlr⟩
  | atom a => exact ⟨hc, by simp [orSpine, lvl], by simp [orSpine]⟩
  | not e ih => exact ⟨hc, by simp [orSpine, lvl], by simp [orSpine]⟩
  | and l r ihl ihr => exact ⟨hc, by simp [orSpine, lvl], by simp [orSpine]⟩
  | group e ih => exact ⟨hc, by simp [orSpine, lvl], by simp [orSpine]⟩

/-! ## Completeness of the chain tails -/

theorem parseF_andTail (P : Tok → Except PErr Tok) (items : List LExpr)
    (HC : ∀ i ∈ items, CUnaryP P i) :
    ∀ f acc ats r, psizeL items + 1 ≤ f → AfterAnd r →
      parseF P f (.pandTail acc ats) (joinAnd items ++ r)
        = .ok ⟨List.foldl LExpr.and acc items, ats ++ flatsOf items, r⟩ := by
  induction items with
  | nil =>
      intro f acc ats r hf hr
      cases f with
      | zero => omega
      | succ f =>
          simp only [joinAnd, List.nil_append, parseF]
          obtain ⟨hraw, hstop⟩ := hr
          rcases hstop with h1 | ⟨x, h1⟩ | ⟨x, h1⟩ <;>
            rw [h1] <;> simp [flatsOf]
  | cons i is ih =>
      intro f acc ats r hf hr
      have hfl : psizeL (i :: is) = psize i + 8 + psizeL is := rfl
      cases f with
      | zero => omega
      | succ f =>
          simp only [joinAnd, List.cons_append, List.append_assoc, parseF]
          rw [skipWs_cons_sp, skipWs_cons_of_ne '&' _ (by decide)]
          have hrf : RawFollows (joinAnd is ++ r) := by
            cases is with
            | nil => simpa [joinAnd] using hr.1
            | cons j js =>
                exact Or.inr (Or.inl ⟨'&' :: ' ' :: render j ++ (joinAnd js ++ r),
                  by simp [joinAnd]⟩)
          have hcall := HC i (by simp) f [' '] (joinAnd is ++ r)
            (by omega) (by simp) hrf
          simp only [List.singleton_append, List.cons_append, List.nil_append,
            List.append_assoc] at hcall
          simp only [if_pos rfl]
          rw [hcall]
          have hrec := ih (fun j hj => HC j (by simp [hj])) f
            (LExpr.and acc i) (ats ++ flattenAtoms i) r (by omega) hr
          simp only [hrec]
          simp [flatsOf, List.foldl]

theorem parseF_orTail (P : Tok → Except PErr Tok) (items : List LExpr)
    (HC : ∀ i ∈ items, CAndP P i) :
    ∀ f acc ats r, psizeL items + 1 ≤ f → AfterOr r →
      parseF P f (.porTail acc ats) (joinOr items ++ r)
        = .ok ⟨List.foldl LExpr.or acc items, ats ++ flatsOf items, r⟩ := by
  induction items with
  | nil =>
      intro f acc ats r hf hr
      cases f with
      | zero => omega
      | succ f =>
          simp only [joinOr, List.nil_append, parseF]
          obtain ⟨hraw, hstop⟩ := hr
          rcases hstop with h1 | ⟨x, h1⟩ <;>
            rw [h1] <;> simp [flatsOf]
  | cons i is ih =>
      intro f acc ats r hf hr
      have hfl : psizeL (i :: is) = psize i + 8 + psizeL is := rfl
      cases f with
      | zero => omega
      | succ f =>
          simp only [joinOr, List.cons_append, List.append_assoc, parseF]
          rw [skipWs_cons_sp, skipWs_cons_of_ne '|' _ (by decide)]
          have haf : AfterAnd (joinOr is ++ r) := by
            cases is with
            | nil =>
                simp only [joinOr, List.nil_append]
                exact ⟨hr.1, Or.elim hr.2 (fun h => Or.inl h)
                  (fun h => Or.inr (Or.inl h))⟩
            | cons j js =>
                constructor
                · exact Or.inr (Or.inl ⟨'|' :: ' ' :: render j ++ (joinOr js ++ r),
                    by simp [joinOr]⟩)
                · right; right
                  refine ⟨' ' :: render j ++ (joinOr js ++ r), ?_⟩
                  simp only [joinOr, List.cons_append, List.append_assoc]
                  rw [skipWs_cons_sp, skipWs_cons_of_ne '|' _ (by decide)]
          have hcall := HC i (by simp) f [' '] (joinOr is ++ r)
            (by omega) (by simp) haf
          simp only [List.singleton_append, List.cons_append, List.nil_append,
            List.append_assoc] at hcall
          simp only [if_pos rfl]
          rw [hcall]
          have hrec := ih (fun j hj => HC j (by simp [hj])) f
            (LExpr.or acc i) (ats ++ flattenAtoms i) r (by omega) hr
          simp only [hrec]
          simp [flatsOf, List.foldl]

/-! ## Completeness of the parser on canonical renderings -/

theorem parseF_complete (P : Tok → Except PErr Tok) :
    ∀ n t, psize t ≤ n → canonical t = true →
      (∀ a ∈ flattenAtoms t, GoodAtom a) →
      (∀ a ∈ flattenAtoms t, ∀ r, RawFollows r → P (a ++ r) = .ok a) →
      (3 ≤ lvl t → CPrimP P t) ∧ (2 ≤ lvl t → CUnaryP P t) ∧
        (1 ≤ lvl t → CAndP P t) ∧ COrP P t := by
  intro n
  induction n using Nat.strong_induction_on with
  | _ n IH =>
  intro t hn hcan hga hpr
  have hPrim : 3 ≤ lvl t → CPrimP P t := by
    intro hl
    cases t with
    | not e => exact absurd hl (by simp [lvl])
    | and l r2 => exact absurd hl (by simp [lvl])
    | or l r2 => exact absurd hl (by simp [lvl])
    | atom a =>
        intro f pre r hf hpre hr
        obtain ⟨c, cs, hc, h1, h2, h3, h4, h5, h6⟩ :=
          hga a (by simp [flattenAtoms])
        subst hc
        cases f with
        | zero =>
            have := psize_pos (LExpr.atom (c :: cs))
            omega
        | succ f =>
            have hP : P (c :: (cs ++ r)) = .ok (c :: cs) := by
              have h7 := hpr (c :: cs) (by simp [flattenAtoms]) r hr
              simpa using h7
            simp only [parseF, render]
            rw [show pre ++ (c :: cs) ++ r = pre ++ (c :: (cs ++ r)) by simp]
            rw [skipWs_append_spaces pre _ hpre, skipWs_cons_of_ne c _ h1]
            simp [h2, h3, h4, h5, h6, hP, flattenAtoms, List.drop_succ_cons,
              List.drop_left]
    | group e =>
        have hce : canonical e = true := by simpa [canonical] using hcan
        have hIH := IH (psize e) (by simp only [psize] at hn; omega) e le_rfl hce
          (fun a ha => hga a (by simpa [flattenAtoms] using ha))
          (fun a ha => hpr a (by simpa [flattenAtoms] using ha))
        intro f pre r hf hpre hr
        cases f with
        | zero =>
            have := psize_pos (LExpr.group e)
            omega
        | succ f =>
            have hcall := hIH.2.2.2 f (')' :: r)
              (by simp only [psize] at hf; omega)
              ⟨Or.inr (Or.inr ⟨r, rfl⟩),
               Or.inr ⟨r, skipWs_cons_of_ne ')' r (by decide)⟩⟩
            simp only [parseF, render]
            rw [show pre ++ ('(' :: (render e ++ [')'])) ++ r
                = pre ++ ('(' :: (render e ++ (')' :: r))) by simp]
            rw [skipWs_append_spaces pre _ hpre,
              skipWs_cons_of_ne '(' _ (by decide)]
            simp [hcall, skipWs_cons_of_ne ')' r (by decide), flattenAtoms]
  have hUn : 2 ≤ lvl t → CUnaryP P t := by
    intro hl
    cases t with
    | and l r2 => exact absurd hl (by simp [lvl])
    | or l r2 => exact absurd hl (by simp [lvl])
    | not e =>
        have hce : canonical e = true ∧ 2 ≤ lvl e := by
          have := hcan
          simp only [canonical, Bool.and_eq_true, decide_eq_true_eq] at this
          exact this
        have hIH := IH (psize e) (by simp only [psize] at hn; omega) e le_rfl hce.1
          (fun a ha => hga a (by simpa [flattenAtoms] using ha))
          (fun a ha => hpr a (by simpa [flattenAtoms] using ha))
        have hUe := hIH.2.1 hce.2
        intro f pre r hf hpre hr
        cases f with
        | zero =>
            have := psize_pos (LExpr.not e)
            omega
        | succ f =>
            have hcall := hUe f [] r (by simp only [psize] at hf; omega)
              (by simp) hr
            simp only [List.nil_append] at hcall
            simp only [parseF, render]
            rw [show pre ++ ('!' :: render e) ++ r
                = pre ++ ('!' :: (render e ++ r)) by simp]
            rw [skipWs_append_spaces pre _ hpre,
              skipWs_cons_of_ne '!' _ (by decide)]
            simp [hcall, flattenAtoms]
    | atom a =>
        have hP := hPrim (by simp [lvl])
        intro f pre r hf hpre hr
        obtain ⟨c, cs, hc, h1, h2, h3, h4, h5, h6⟩ :=
          hga a (by simp [flattenAtoms])
        subst hc
        cases f with
        | zero =>
            have := psize_pos (LExpr.atom (c :: cs))
            omega
        | succ f =>
            have hcall := hP f pre r (by omega) hpre hr
            rw [show pre ++ render (LExpr.atom (c :: cs)) ++ r
                = pre ++ (c :: (cs ++ r)) by simp [render]] at hcall
            simp only [parseF, render]
            rw [show pre ++ (c :: cs) ++ r = pre ++ (c :: (cs ++ r)) by simp]
            rw [skipWs_append_spaces pre _ hpre, skipWs_cons_of_ne c _ h1]
            simp only [if_neg h6]
            exact hcall
    | group e =>
        have hP := hPrim (by simp [lvl])
        intro f pre r hf hpre hr
        cases f with
        | zero =>
            have := psize_pos (LExpr.group e)
            omega
        | succ f =>
            have hcall := hP f pre r (by omega) hpre hr
            rw [show pre ++ render (LExpr.group e) ++ r
                = pre ++ ('(' :: (render e ++ (')' :: r))) by simp [render]] at hcall
            simp only [parseF, render]
            rw [show pre ++ ('(' :: (render e ++ [')'])) ++ r
                = pre ++ ('(' :: (render e ++ (')' :: r))) by simp]
            rw [skipWs_append_spaces pre _ hpre,
              skipWs_cons_of_ne '(' _ (by decide)]
            simp [hcall]
  have hAnd : 1 ≤ lvl t → CAndP P t := by
    intro hl
    obtain ⟨hch, hlh, hitems⟩ := andSpine_canonical t hcan hl
    have hps := andSpine_psize t
    have hfl := andSpine_flatten t
    have hgaH : ∀ a ∈ flattenAtoms (andSpine t).1, GoodAtom a := by
      intro a ha
      exact hga a (by rw [hfl]; exact List.mem_append_left _ ha)
    have hprH : ∀ a ∈ flattenAtoms (andSpine t).1, ∀ r, RawFollows r →
        P (a ++ r) = .ok a := by
      intro a ha
      exact hpr a (by rw [hfl]; exact List.mem_append_left _ ha)
    have hHeadU : CUnaryP P (andSpine t).1 := by
      cases t with
      | and l r2 =>
          have h8 : 8 ≤ psizeL (andSpine (LExpr.and l r2)).2 := by
            simp only [andSpine, psizeL_concat]
            have := psize_pos r2
            omega
          have hlt : psize (andSpine (LExpr.and l r2)).1 < n := by
            have := psize_pos (andSpine (LExpr.and l r2)).1
            omega
          have hIH := IH (psize (andSpine (LExpr.and l r2)).1) hlt _ le_rfl
            hch hgaH hprH
          exact hIH.2.1 hlh
      | atom a =>
          have := hUn (by simp [lvl])
          simpa [andSpine] using this
      | not e =>
          have := hUn (by simp [lvl])
          simpa [andSpine] using this
      | group e =>
          have := hUn (by simp [lvl])
          simpa [andSpine] using this
      | or l r2 => exact absurd hl (by simp [lvl])
    have hItemsU : ∀ i ∈ (andSpine t).2, CUnaryP P i := by
      intro i hi
      have hpsi := mem_psizeL _ _ hi
      have hip := hitems i hi
      have hlt : psize i < n := by
        have := psize_pos (andSpine t).1
        omega
      have hIH := IH (psize i) hlt i le_rfl hip.1
        (fun a ha => hga a (by
          rw [hfl]
          exact List.mem_append_right _ (mem_flatsOf _ i a hi ha)))
        (fun a ha => hpr a (by
          rw [hfl]
          exact List.mem_append_right _ (mem_flatsOf _ i a hi ha)))
      exact hIH.2.1 hip.2
    intro f pre r hf hpre hr
    cases f with
    | zero =>
        have := psize_pos t
        omega
    | succ f =>
        have hrf : RawFollows (joinAnd (andSpine t).2 ++ r) := by
          cases hsp : (andSpine t).2 with
          | nil => simpa [joinAnd] using hr.1
          | cons j js =>
              exact Or.inr (Or.inl ⟨'&' :: ' ' :: render j ++ (joinAnd js ++ r),
                by simp [joinAnd]⟩)
        have hcall := hHeadU f pre (joinAnd (andSpine t).2 ++ r)
          (by have := psize_pos (andSpine t).1; omega) hpre hrf
        have htail := parseF_andTail P (andSpine t).2 hItemsU f
          (andSpine t).1 (flattenAtoms (andSpine t).1) r
          (by have := psize_pos (andSpine t).1; omega) hr
        simp only [parseF]
        rw [show pre ++ render t ++ r
            = pre ++ render (andSpine t).1 ++ (joinAnd (andSpine t).2 ++ r) by
          rw [andSpine_render t]; simp]
        rw [hcall]
        simp only [htail, andSpine_fold t]
        rw [← hfl]
  have hOr : COrP P t := by
    obtain ⟨hch, hlh, hitems⟩ := orSpine_canonical t hcan
    have hps := orSpine_psize t
    have hfl := orSpine_flatten t
    have hgaH : ∀ a ∈ flattenAtoms (orSpine t).1, GoodAtom a := by
      intro a ha
      exact hga a (by rw [hfl]; exact List.mem_append_left _ ha)
    have hprH : ∀ a ∈ flattenAtoms (orSpine t).1, ∀ r, RawFollows r →
        P (a ++ r) = .ok a := by
      intro a ha
      exact hpr a (by rw [hfl]; exact List.mem_append_left _ ha)
    have hHeadA : CAndP P (orSpine t).1 := by
      cases t with
      | or l r2 =>
          have h8 : 8 ≤ psizeL (orSpine (LExpr.or l r2)).2 := by
            simp only [orSpine, psizeL_concat]
            have := psize_pos r2
            omega
          have hlt : psize (orSpine (LExpr.or l r2)).1 < n := by
            have := psize_pos (orSpine (LExpr.or l r2)).1
            omega
          have hIH := IH (psize (orSpine (LExpr.or l r2)).1) hlt _ le_rfl
            hch hgaH hprH
          exact hIH.2.2.1 hlh
      | atom a =>
          have := hAnd (by simp [lvl])
          simpa [orSpine] using this
      | not e =>
          have := hAnd (by simp [lvl])
          simpa [orSpine] using this
      | group e =>
          have := hAnd (by simp [lvl])
          simpa [orSpine] using this
      | and l r2 =>
          have := hAnd (by simp [lvl])
          simpa [orSpine] using this
    have hItemsA : ∀ i ∈ (orSpine t).2, CAndP P i := by
      intro i hi
      have hpsi := mem_psizeL _ _ hi
      have hip := hitems i hi
      have hlt : psize i < n := by
        have := psize_pos (orSpine t).1
        omega
      have hIH := IH (psize i) hlt i le_rfl hip.1
        (fun a ha => hga a (by
          rw [hfl]
          exact List.mem_append_right _ (mem_flatsOf _ i a hi ha)))
        (fun a ha => hpr a (by
          rw [hfl]
          exact List.mem_append_right _ (mem_flatsOf _ i a hi ha)))
      exact hIH.2.2.1 hip.2
    intro f r hf hr
    cases f with
    | zero =>
        have := psize_pos t
        omega
    | succ f =>
        have haf : AfterAnd (joinOr (orSpine t).2 ++ r) := by
          cases hsp : (orSpine t).2 with
          | nil =>
              simp only [joinOr, List.nil_append]
              exact ⟨hr.1, Or.elim hr.2 (fun h => Or.inl h)
                (fun h => Or.inr (Or.inl h))⟩
          | cons j js =>
              constructor
              · exact Or.inr (Or.inl ⟨'|' :: ' ' :: render j ++ (joinOr js ++ r),
                  by simp [joinOr]⟩)
              · right; right
                refine ⟨' ' :: render j ++ (joinOr js ++ r), ?_⟩
                simp only [joinOr, List.cons_append, List.append_assoc]
                rw [skipWs_cons_sp, skipWs_cons_of_ne '|' _ (by decide)]
        have hcall := hHeadA f [] (joinOr (orSpine t).2 ++ r)
          (by have := psize_pos (orSpine t).1; omega) (by simp) haf
        simp only [List.nil_append] at hcall
        have htail := parseF_orTail P (orSpine t).2 hItemsA f
          (orSpine t).1 (flattenAtoms (orSpine t).1) r
          (by have := psize_pos (orSpine t).1; omega) hr
        simp only [parseF]
        rw [show render t ++ r
            = render (orSpine t).1 ++ (joinOr (orSpine t).2 ++ r) by
          rw [orSpine_render t]; simp]
        rw [hcall]
        simp only [htail, orSpine_fold t]
        rw [← hfl]
  exact ⟨hPrim, hUn, hAnd, hOr⟩

/-! ## Parser output atoms under a span-claiming provider -/

/-- When the provider only claims prefixes of the remaining text, every
atom consumed by a successful parse starts with a non-operator, non-space
byte (the byte at which the parser delegated to the provider). -/
theorem parseF_atoms_good (P : Tok → Except PErr Tok)
    (hspan : SpanClaiming P) :
    ∀ f mode s o, parseF P f mode s = .ok o → goodInv mode o := by
  intro f
  induction f with
  | zero => intro mode s o h; exact Except.noConfusion h
  | succ f ih =>
    intro mode s o h
    cases mode with
    | por =>
        simp only [parseF] at h
        split at h
        · exact Except.noConfusion h
        · next o1 heq =>
            exact ih _ _ _ h (ih .pand s o1 heq)
    | porTail acc ats =>
        simp only [parseF] at h
        split at h
        · injection h with h2
          subst h2
          intro hpre
          exact hpre
        · split at h
          · split at h
            · exact Except.noConfusion h
            · next o1 heq =>
                have g1 := ih .pand _ o1 heq
                have g2 := ih _ _ _ h
                intro hpre
                refine g2 ?_
                intro a ha
                rcases List.mem_append.mp ha with h1 | h1
                · exact hpre a h1
                · exact g1 a h1
          · injection h with h2
            subst h2
            intro hpre
            exact hpre
    | pand =>
        simp only [parseF] at h
        split at h
        · exact Except.noConfusion h
        · next o1 heq =>
            exact ih _ _ _ h (ih .punary s o1 heq)
    | pandTail acc ats =>
        simp only [parseF] at h
        split at h
        · injection h with h2
          subst h2
          intro hpre
          exact hpre
        · split at h
          · split at h
            · exact Except.noConfusion h
            · next o1 heq =>
                have g1 := ih .punary _ o1 heq
                have g2 := ih _ _ _ h
                intro hpre
                refine g2 ?_
                intro a ha
                rcases List.mem_append.mp ha with h1 | h1
                · exact hpre a h1
                · exact g1 a h1
          · injection h with h2
            subst h2
            intro hpre
            exact hpre
    | punary =>
        simp only [parseF] at h
        split at h
        · exact ih .pprimary _ _ h
        · split at h
          · split at h
            · exact Except.noConfusion h
            · next o1 heq =>
                have g1 := ih .punary _ o1 heq
                injection h with h2
                subst h2
                exact g1
          · exact ih .pprimary _ _ h
    | pprimary =>
        simp only [parseF] at h
        split at h
        · exact Except.noConfusion h
        · next c r2 heq =>
            have hcsp : c ≠ ' ' := skipWs_head_ne s c r2 heq
            split at h
            · next hc1 =>
                split at h
                · exact Except.noConfusion h
                · next o1 heq2 =>
                    have g1 := ih .por _ o1 heq2
                    split at h
                    · exact Except.noConfusion h
                    · split at h
                      · injection h with h2
                        subst h2
                        exact g1
                      · exact Except.noConfusion h
            · next hc1 =>
                split at h
                · exact Except.noConfusion h
                · next hc2 =>
                    cases hP : P (c :: r2) with
                    | error e =>
                        rw [hP] at h
                        exact Except.noConfusion h
                    | ok tok =>
                        rw [hP] at h
                        by_cases hne : tok = []
                        · simp only [hne, if_true, reduceCtorEq] at h
                        · simp only [if_neg hne, Except.ok.injEq] at h
                          subst h
                          intro b hb
                          have hb2 : b = tok := by simpa using hb
                          subst hb2
                          obtain ⟨r3, hr3⟩ := hspan _ _ hP
                          rcases b with _ | ⟨t0, ts⟩
                          · exact absurd rfl hne
                          · injection hr3 with hr4 _
                            subst hr4
                            push_neg at hc2
                            exact ⟨c, ts, rfl, hcsp, hc1, hc2.1,
                              hc2.2.1, hc2.2.2.1, hc2.2.2.2⟩

/-! ## parseExpression wrappers -/

/-- A successful `parseExpression` yields a canonical tree whose stored
atom list is its flattened atom list. -/
theorem parseExpression_ok (P : Tok → Except PErr Tok) (E : Tok)
    (t : LExpr) (ats : List Tok)
    (h : parseExpression P E = .ok (t, ats)) :
    canonical t = true ∧ ats = flattenAtoms t := by
  unfold parseExpression at h
  split at h
  · exact Except.noConfusion h
  · next o heq =>
      split at h
      · injection h with h2
        have ht : o.tree = t := congrArg Prod.fst h2
        have ha : o.atoms = ats := congrArg Prod.snd h2
        have hs := parseF_sound P _ _ _ _ heq
        subst ht
        subst ha
        exact ⟨hs.1, hs.2⟩
      · exact Except.noConfusion h

/-- Under a span-claiming provider, every atom of a successfully parsed
tree starts with a non-operator, non-space byte. -/
theorem parseExpression_good (P : Tok → Except PErr Tok)
    (hspan : SpanClaiming P) (E : Tok) (t : LExpr) (ats : List Tok)
    (h : parseExpression P E = .ok (t, ats)) :
    ∀ a ∈ flattenAtoms t, GoodAtom a := by
  have hok := parseExpression_ok P E t ats h
  unfold parseExpression at h
  split at h
  · exact Except.noConfusion h
  · next o heq =>
      split at h
      · injection h with h2
        have ht : o.tree = t := congrArg Prod.fst h2
        have ha : o.atoms = ats := congrArg Prod.snd h2
        have hg := parseF_atoms_good P hspan _ _ _ _ heq
        intro a haf
        refine hg a ?_
        rw [ha, hok.2]
        exact haf
      · exact Except.noConfusion h

/-- Canonical trees render no shorter than an eighth of their fuel
measure. -/
theorem psize_le_render (t : LExpr) (hcan : canonical t = true) :
    psize t ≤ 8 * (render t).length := by
  induction t with
  | atom a =>
      have hne : a ≠ [] := by simpa [canonical, List.isEmpty_iff] using hcan
      have : 0 < a.length := List.length_pos.mpr hne
      simp only [psize, render]
      omega
  | not e ih =>
      simp only [canonical, Bool.and_eq_true, decide_eq_true_eq] at hcan
      have := ih hcan.1
      simp only [psize, render, List.length_cons]
      omega
  | and l r ihl ihr =>
      simp only [canonical, Bool.and_eq_true, decide_eq_true_eq] at hcan
      have h1 := ihl hcan.1.1.1
      have h2 := ihr hcan.1.1.2
      simp only [psize, render, List.length_append, List.length_cons]
      omega
  | or l r ihl ihr =>
      simp only [canonical, Bool.and_eq_true, decide_eq_true_eq] at hcan
      have h1 := ihl hcan.1.1
      have h2 := ihr hcan.1.2
      simp only [psize, render, List.length_append, List.length_cons]
      omega
  | group e ih =>
      have := ih (by simpa [canonical] using hcan)
      simp only [psize, render, List.length_cons, List.length_append]
      omega

/-- Reparsing the canonical rendering of a canonical tree succeeds and
returns exactly that tree with its atom list, for any provider that
consistently re-claims the tree's atoms. -/
theorem parseExpression_complete (P : Tok → Except PErr Tok) (t : LExpr)
    (hcan : canonical t = true)
    (hga : ∀ a ∈ flattenAtoms t, GoodAtom a)
    (hpr : ∀ a ∈ flattenAtoms t, ∀ r, RawFollows r → P (a ++ r) = .ok a) :
    parseExpression P (render t) = .ok (t, flattenAtoms t) := by
  have hOr := (parseF_complete P (psize t) t le_rfl hcan hga hpr).2.2.2
  have hlen := psize_le_render t hcan
  have hcall := hOr (8 * (render t).length + 8) []
    (by omega) ⟨Or.inl rfl, Or.inl rfl⟩
  rw [show render t ++ ([] : Tok) = render t by simp] at hcall
  unfold parseExpression
  rw [hcall]
  simp [skipWs]

/-- The test provider only claims prefixes. -/
theorem wsProvider_span : SpanClaiming wsProvider := by
  intro s tok h
  simp only [wsProvider] at h
  split at h
  · exact Except.noConfusion h
  · injection h with h2
    subst h2
    exact ⟨s.dropWhile wsPred, (List.takeWhile_append_dropWhile _ _).symm⟩

/-! ## Claim theorems on parsing, stringification and creation -/

/-- C3: whenever parsing fails, `create` returns no expression object and
the parse error's human-readable (nonempty) message; a provider rejecting
an atom yields the binding's distinct message `"cannot parse lua atom"`,
different from every other parse message. -/
theorem claim_c3 (fn : Tok → LuaPcall) (line : Tok) (e : PErr)
    (h : parseExpression (luaProvider fn) line = .error e) :
    luaExprCreate .str .table true .function .function line (luaProvider fn)
      = (none, some e.message) ∧
    e.message ≠ [] ∧
    PErr.providerRejected.message = ("cannot parse lua atom").toList ∧
    (∀ e2 : PErr, e2 ≠ .providerRejected →
      e2.message ≠ PErr.providerRejected.message) := by
  refine ⟨?_, ?_, rfl, ?_⟩
  · simp [luaExprCreate, h]
  · cases e <;> decide
  · intro e2 hne
    cases e2
    case providerRejected => exact absurd rfl hne
    all_goals decide

/-- Witness for C3 at a concrete failing input (`"A &"`). -/
theorem claim_c3_witness :
    luaExprCreate .str .table true .function .function ("A &").toList
        (luaProvider (fun rem => LuaPcall.ret LuaType.str (rem.takeWhile wsPred)))
      = (none, some (PErr.missingOperand).message) ∧
    (PErr.missingOperand).message ≠ [] ∧
    PErr.providerRejected.message = ("cannot parse lua atom").toList ∧
    (∀ e2 : PErr, e2 ≠ .providerRejected →
      e2.message ≠ PErr.providerRejected.message) :=
  claim_c3 (fun rem => LuaPcall.ret LuaType.str (rem.takeWhile wsPred))
    (("A &").toList) .missingOperand rfl

/-- C6: the `atoms()` enumeration of a parsed expression is exactly the
flattened left-to-right textual atom list of the tree, and every
evaluation — under any flags, hence any short-circuiting — only ever
invokes a subsequence of that list; the enumeration itself takes no
`process_atom` callback and is unaffected by evaluations (the tree is
never mutated). -/
theorem claim_c6 (P : Tok → Except PErr Tok) (E : Tok) (t : LExpr)
    (ats : List Tok)
    (h : parseExpression P E = .ok (t, ats)) :
    atomForeach (t, ats) = flattenAtoms t ∧
    ∀ f fl, List.Sublist (invokedAtoms f fl t) (atomForeach (t, ats)) := by
  have hs := parseExpression_ok P E t ats h
  have hfe : atomForeach (t, ats) = flattenAtoms t := by
    simpa [atomForeach] using hs.2
  refine ⟨hfe, ?_⟩
  intro f fl
  rw [hfe]
  exact invokedAtoms_sublist f fl t

/-- Witness for C6 at the concrete input `"A & B"`. -/
theorem claim_c6_witness :
    atomForeach (LExpr.and (.atom ['A']) (.atom ['B']), [['A'], ['B']])
      = flattenAtoms (LExpr.and (.atom ['A']) (.atom ['B'])) ∧
    ∀ f fl, List.Sublist
      (invokedAtoms f fl (LExpr.and (.atom ['A']) (.atom ['B'])))
      (atomForeach (LExpr.and (.atom ['A']) (.atom ['B']), [['A'], ['B']])) :=
  claim_c6 wsProvider (("A & B").toList)
    (LExpr.and (.atom ['A']) (.atom ['B'])) [['A'], ['B']] rfl

/-- C4: stringify-then-reparse equivalence.  For any expression text
accepted by `parse` and any provider obeying the spec's contract — it
claims exact spans (`SpanClaiming`) and re-claims each stored atom when it
reappears followed by end of input, a space or a closing parenthesis —
reparsing `to_string` of the tree yields a tree that evaluates identically
on every context and every flags value. -/
theorem claim_c4 (P : Tok → Except PErr Tok) (E : Tok) (t : LExpr)
    (ats : List Tok)
    (hspan : SpanClaiming P)
    (h : parseExpression P E = .ok (t, ats))
    (hpr : ∀ a ∈ flattenAtoms t, ∀ r, RawFollows r → P (a ++ r) = .ok a) :
    ∃ t2 ats2,
      parseExpression P (luaExprToString (t, ats)) = .ok (t2, ats2) ∧
      ∀ f fl, processExpr f fl t2 = processExpr f fl t := by
  obtain ⟨hcan, hats⟩ := parseExpression_ok P E t ats h
  have hga := parseExpression_good P hspan E t ats h
  refine ⟨t, flattenAtoms t, ?_, fun f fl => rfl⟩
  simpa [luaExprToString] using parseExpression_complete P t hcan hga hpr

/-- Witness for C4 at the concrete input `"A & B"` with the test
provider. -/
theorem claim_c4_witness :
    ∃ t2 ats2,
      parseExpression wsProvider
        (luaExprToString (LExpr.and (.atom ['A']) (.atom ['B']), [['A'], ['B']]))
        = .ok (t2, ats2) ∧
      ∀ f fl, processExpr f fl t2
        = processExpr f fl (LExpr.and (.atom ['A']) (.atom ['B'])) :=
  claim_c4 wsProvider (("A & B").toList)
    (LExpr.and (.atom ['A']) (.atom ['B'])) [['A'], ['B']]
    wsProvider_span rfl
    (by
      intro a ha r hr
      have hfa : a = ['A'] ∨ a = ['B'] := by
        simpa [flattenAtoms] using ha
      rcases hfa with rfl | rfl <;>
        rcases hr with rfl | ⟨x, rfl⟩ | ⟨x, rfl⟩ <;>
          simp [wsProvider, wsPred, List.takeWhile])

/-- C10: the argument validation of `lua_expr_create`: a non-string first
argument, non-table second argument or missing memory pool yields
`(nil, "bad arguments")`; a non-function element 1 yields
`(nil, "bad parse callback")`; a non-function element 2 yields
`(nil, "bad process callback")` — in each case no expression object is
constructed. -/
theorem claim_c10 (a1 a2 : LuaType) (poolOk : Bool) (e1 e2 : LuaType)
    (line : Tok) (P : Tok → Except PErr Tok) :
    (¬ (a1 = .str ∧ a2 = .table ∧ poolOk = true) →
      luaExprCreate a1 a2 poolOk e1 e2 line P
        = (none, some ("bad arguments").toList)) ∧
    (a1 = .str → a2 = .table → poolOk = true → e1 ≠ .function →
      luaExprCreate a1 a2 poolOk e1 e2 line P
        = (none, some ("bad parse callback").toList)) ∧
    (a1 = .str → a2 = .table → poolOk = true → e1 = .function →
      e2 ≠ .function →
      luaExprCreate a1 a2 poolOk e1 e2 line P
        = (none, some ("bad process callback").toList)) := by
  refine ⟨?_, ?_, ?_⟩
  · intro hbad
    simp [luaExprCreate, hbad]
  · intro h1 h2 h3 h4
    subst h1; subst h2; subst h3
    simp [luaExprCreate, h4]
  · intro h1 h2 h3 h4 h5
    subst h1; subst h2; subst h3; subst h4
    simp [luaExprCreate, h5]

/-- Witness for C10 at three concrete bad-argument combinations. -/
theorem claim_c10_witness :
    luaExprCreate .number .table true .function .function [] wsProvider
      = (none, some ("bad arguments").toList) ∧
    luaExprCreate .str .table true .number .function [] wsProvider
      = (none, some ("bad parse callback").toList) ∧
    luaExprCreate .str .table true .function .number [] wsProvider
      = (none, some ("bad process callback").toList) :=
  ⟨(claim_c10 .number .table true .function .function [] wsProvider).1
      (by simp),
   (claim_c10 .str .table true .number .function [] wsProvider).2.1
      rfl rfl rfl (by simp),
   (claim_c10 .str .table true .function .number [] wsProvider).2.2
      rfl rfl rfl rfl (by simp)⟩

end Srpamd


